import Mathlib

/-!
Shallow embedding of `scripts/gen-protocol-diagrams.py` (the daedalus
protocol-diagram generator) and proofs about its layout engine.

The Python script renders a protocol description as an RFC-style ASCII
diagram.  Machine integers are modelled as `Nat` (bit positions never go
negative for positive bit widths; the data model declares `bits` a positive
integer); character-column positions are modelled as `Int`, because the
Python code computes possibly-negative positions and indexes 65-element
line buffers with Python semantics (negative indices wrap from the end,
out-of-range assignment raises `IndexError`).  Fallible rendering returns
`Option`: `none` models a raised exception.
-/

namespace Daedalus

/-- One protocol field: `{name, bits, description}` from the JSON input. -/
structure PField where
  name : String
  bits : Nat
  description : Option String
deriving DecidableEq, Repr

/-- A protocol: `{name, source, total_note, fields}`; the first three keys are
optional in the JSON, which is modelled with `Option`. -/
structure Protocol where
  name : Option String
  source : Option String
  total_note : Option String
  fields : List PField
deriving DecidableEq, Repr

/-- A packed unit emitted by the packing loop of `generate_diagram`
(lines 76-126): either a 32-bit row group (list of `(field, start_bit,
end_bit)` triples, Python's `row_fields`) or a dedicated wide block for a
field with more than 32 bits. -/
inductive Block where
  | row (g : List (PField × Nat × Nat)) : Block
  | wide (f : PField) : Block
deriving DecidableEq, Repr

/-- State threaded through the field loop of `generate_diagram`:
`bit_pos`, the pending `row_fields`, and the blocks flushed so far
(in the source they are rendered to text immediately; here they are
collected and rendered afterwards in the same order, which yields the
same line sequence because `first_row` is true exactly for the first
rendered block). -/
structure PackState where
  bitPos : Nat
  rowFields : List (PField × Nat × Nat)
  blocks : List Block
deriving DecidableEq, Repr

/-- Python `if row_fields: <render row_fields>` (lines 83-84, 104-105,
125-126): flush the pending row group if it is non-empty. -/
def flushRow (blocks : List Block) (g : List (PField × Nat × Nat)) : List Block :=
  if g.isEmpty then blocks else blocks ++ [Block.row g]

/-- One iteration of the `for field in fields` loop of `generate_diagram`
(lines 76-122), translated branch by branch:
wide fields (> 32 bits) flush the pending row, align `bit_pos` up to the
next 32-bit boundary when `start_bit != 0`, and emit a dedicated block;
small fields that would overflow the row flush it, align `bit_pos`, and
restart at `start_bit = 0`; the field is then appended with
`end_bit = start_bit + bits - 1`, and the row is flushed when `bit_pos`
lands on a 32-bit boundary. -/
def packStep (s : PackState) (f : PField) : PackState :=
  let fieldBits := f.bits
  let startBit := s.bitPos % 32
  if 32 < fieldBits then
    let blocks2 := flushRow s.blocks s.rowFields
    let bitPos2 := if startBit ≠ 0 then ((s.bitPos + 31) / 32) * 32 else s.bitPos
    { bitPos := bitPos2 + fieldBits, rowFields := [], blocks := blocks2 ++ [Block.wide f] }
  else
    let overflow : Bool := 32 < startBit + fieldBits
    let blocks2 := if overflow then flushRow s.blocks s.rowFields else s.blocks
    let rowFields2 := if overflow then [] else s.rowFields
    let bitPos2 := if overflow then ((s.bitPos + 31) / 32) * 32 else s.bitPos
    let startBit2 := if overflow then 0 else startBit
    let endBit := startBit2 + fieldBits - 1
    let rowFields3 := rowFields2 ++ [(f, startBit2, endBit)]
    let bitPos3 := bitPos2 + fieldBits
    if bitPos3 % 32 = 0 then
      { bitPos := bitPos3, rowFields := [], blocks := blocks2 ++ [Block.row rowFields3] }
    else
      { bitPos := bitPos3, rowFields := rowFields3, blocks := blocks2 }

/-- The whole `for field in fields` loop. -/
def packLoop (s : PackState) : List PField → PackState
  | [] => s
  | f :: rest => packLoop (packStep s f) rest

/-- Initial loop state: `bit_pos = 0`, empty `row_fields` (lines 72-73). -/
def initState : PackState := { bitPos := 0, rowFields := [], blocks := [] }

/-- The row packer inside `generate_diagram`: run the field loop, then flush
any remaining fields (lines 124-126). -/
def pack (fields : List PField) : List Block :=
  let s := packLoop initState fields
  flushRow s.blocks s.rowFields

/-! Renderer.  A diagram line is a `List Char` of length 65, mirroring the
Python line buffers `['│'] + [' '] * 63 + ['│']`. -/

/-- Python list assignment `l[i] = c` on a character buffer: a negative
index wraps from the end; an index out of range raises `IndexError`
(modelled as `none`). -/
def pyListSet (l : List Char) (i : Int) (c : Char) : Option (List Char) :=
  let j : Int := if i < 0 then i + l.length else i
  if 0 ≤ j ∧ j < (l.length : Int) then some (l.set j.toNat c) else none

/-- The character-writing loops of `_render_row` / `_render_wide_field`
(lines 153-156, 164-167, 206-209, 232-235): write the characters of a label
at consecutive positions starting at `pos`, skipping any position that
fails `pos < charEnd and pos < 64`.  The wide-field loops check only
`pos < 64`, which is this function at `charEnd = 64`. -/
def writeChars (line : List Char) (cs : List Char) (pos charEnd : Int) :
    Option (List Char) :=
  match cs with
  | [] => some line
  | c :: rest =>
    if pos < charEnd ∧ pos < 64 then
      match pyListSet line pos c with
      | none => none
      | some l2 => writeChars l2 rest (pos + 1) charEnd
    else writeChars line rest (pos + 1) charEnd

/-- Fresh line buffer `['│'] + [' '] * 63 + ['│']`. -/
def initLine : List Char := '│' :: (List.replicate 63 ' ' ++ ['│'])

/-- Python truthiness of `field.get('description')`: a missing key and an
empty string are both falsy. -/
def descTruthy (f : PField) : Bool := f.description.getD "" != ""

/-- Character width of the column span of a bit span, as the source computes
it: `width = char_end - char_start` with `char_start = start*2+1` and
`char_end = end*2+2` (lines 194-196). -/
def charSpanWidth (st en : Nat) : Nat := (en * 2 + 2) - (st * 2 + 1)

/-- Top border of a normal row (lines 176-188): corner, then 63 characters
where loop index `i` yields `'┬'` exactly when `i == end*2+2` for some
non-last field of the row, then the closing corner. -/
def borderLine (g : List (PField × Nat × Nat)) (isFirst : Bool) : List Char :=
  (if isFirst then '┌' else '├') ::
    ((List.range 63).map fun i =>
      if g.dropLast.any (fun t => i == t.2.2 * 2 + 2) then '┬' else '─') ++
    [if isFirst then '┐' else '┤']

/-- Per-field work of the name-line loop of `_render_row` (lines 193-213):
center the label in `[char_start, char_end)` with `left_pad = pad // 2`
(Python floor division, `Int.fdiv`), then write the separator at
`char_end` when `end < 31 and char_end < 64`. -/
def writeField (line : List Char) (t : PField × Nat × Nat) : Option (List Char) :=
  let charStart : Int := (t.2.1 : Int) * 2 + 1
  let charEnd : Int := (t.2.2 : Int) * 2 + 2
  let label := t.1.name.data
  let pad : Int := (charEnd - charStart) - (label.length : Int)
  let leftPad : Int := Int.fdiv pad 2
  match writeChars line label (charStart + leftPad) charEnd with
  | none => none
  | some l2 =>
    if t.2.2 < 31 ∧ charEnd < 64 then pyListSet l2 charEnd '│' else some l2

/-- The full name-line loop `for field, start, end in row_fields`. -/
def writeFields (line : List Char) : List (PField × Nat × Nat) → Option (List Char)
  | [] => some line
  | t :: rest =>
    match writeField line t with
    | none => none
    | some l2 => writeFields l2 rest

/-- Per-field work of the description-line loop of `_render_row`
(lines 222-241): write the description (if truthy) centered in the span,
then write the separator at `end*2+3` when `end < 31` and that position
is `< 64`. -/
def writeDescField (line : List Char) (t : PField × Nat × Nat) : Option (List Char) :=
  let desc := t.1.description.getD ""
  let afterDesc : Option (List Char) :=
    if desc = "" then some line
    else
      let charStart : Int := (t.2.1 : Int) * 2 + 1
      let charEnd : Int := (t.2.2 : Int) * 2 + 2
      let pad : Int := (charEnd - charStart) - (desc.data.length : Int)
      writeChars line desc.data (charStart + Int.fdiv pad 2) charEnd
  match afterDesc with
  | none => none
  | some l2 =>
    if t.2.2 < 31 then
      let sepPos : Int := (t.2.2 : Int) * 2 + 3
      if sepPos < 64 then pyListSet l2 sepPos '│' else some l2
    else some l2

/-- The full description-line loop. -/
def writeDescFields (line : List Char) : List (PField × Nat × Nat) → Option (List Char)
  | [] => some line
  | t :: rest =>
    match writeDescField line t with
    | none => none
    | some l2 => writeDescFields l2 rest

/-- `_render_row` (lines 173-245): top border, name line, and a description
line exactly when some field of the row has a truthy description. -/
def renderRow (g : List (PField × Nat × Nat)) (isFirst : Bool) :
    Option (List (List Char)) :=
  let border := borderLine g isFirst
  match writeFields initLine g with
  | none => none
  | some nameLine =>
    if g.any (fun t => descTruthy t.1) then
      match writeDescFields initLine g with
      | none => none
      | some descLine => some [border, nameLine, descLine]
    else some [border, nameLine]

/-- Top border of a wide-field block (lines 144-147): no internal
separators. -/
def wideBorder (isFirst : Bool) : List Char :=
  (if isFirst then '┌' else '├') ::
    (List.replicate 63 '─' ++ [if isFirst then '┐' else '┤'])

/-- `_render_wide_field` (lines 139-170): full-width border with no internal
separators, name centered across the 63-character body with
`left_pad = (63 - len(label)) // 2`, then an analogous description line
when the description is truthy.  The write guard is `pos < 64`. -/
def renderWideField (f : PField) (isFirst : Bool) : Option (List (List Char)) :=
  let border := wideBorder isFirst
  let label := f.name.data
  let leftPad : Int := Int.fdiv (63 - (label.length : Int)) 2
  match writeChars initLine label (leftPad + 1) 64 with
  | none => none
  | some nameLine =>
    if descTruthy f then
      let desc := (f.description.getD "").data
      let lp2 : Int := Int.fdiv (63 - (desc.length : Int)) 2
      match writeChars initLine desc (lp2 + 1) 64 with
      | none => none
      | some descLine => some [border, nameLine, descLine]
    else some [border, nameLine]

/-- Render one packed block with the appropriate renderer. -/
def renderBlock (b : Block) (isFirst : Bool) : Option (List (List Char)) :=
  match b with
  | Block.row g => renderRow g isFirst
  | Block.wide f => renderWideField f isFirst

/-- Render the packed blocks in order; `is_first` is true exactly for the
first block, matching the `first_row` flag of the source loop. -/
def renderBlocks : List Block → Bool → Option (List (List Char))
  | [], _ => some []
  | b :: rest, isFirst =>
    match renderBlock b isFirst with
    | none => none
    | some ls =>
      match renderBlocks rest false with
      | none => none
      | some rs => some (ls ++ rs)

/-- Title lines (lines 59-64): present only when `name` is, with the source
appended as ` (source)`, followed by a blank line. -/
def titleLines (p : Protocol) : List String :=
  match p.name with
  | some nm =>
    [nm ++ (match p.source with | some s => " (" ++ s ++ ")" | none => ""), ""]
  | none => []

/-- Fixed first ruler line (line 67 of the source, copied verbatim). -/
def rulerA : String :=
  " 0                   1                   2                   3"

/-- Fixed second ruler line (line 68 of the source, copied verbatim). -/
def rulerB : String :=
  " 0 1 2 3 4 5 6 7 8 9 0 1 2 3 4 5 6 7 8 9 0 1 2 3 4 5 6 7 8 9 0 1"

/-- Closing border `"└" + "─" * 63 + "┘"` (line 129). -/
def closingChars : List Char := '└' :: (List.replicate 63 '─' ++ ['┘'])

/-- Closing border as a string. -/
def closingStr : String := String.mk closingChars

/-- Trailing note lines (lines 132-134): a blank line and the note, when
`total_note` is present. -/
def noteLines (p : Protocol) : List String :=
  match p.total_note with
  | some t => ["", t]
  | none => []

/-- `generate_diagram`, at the granularity of its `lines` list: title,
rulers, the rendered blocks in packing order, closing border, note.
`none` models a raised exception during rendering. -/
def generate_diagram_lines (p : Protocol) : Option (List String) :=
  match renderBlocks (pack p.fields) true with
  | none => none
  | some body =>
    some (titleLines p ++ [rulerA, rulerB] ++ body.map String.mk ++
      [closingStr] ++ noteLines p)

/-- `generate_diagram`: the newline-joined text (line 136). -/
def generate_diagram (p : Protocol) : Option String :=
  (generate_diagram_lines p).map fun ls => String.intercalate "\n" ls

/-! Derived quantities used to state properties. -/

/-- Total declared bit width of a field list. -/
def sumBits (fields : List PField) : Nat := (fields.map fun f => f.bits).sum

/-- Total bit width packed into a row group. -/
def widthSum (g : List (PField × Nat × Nat)) : Nat := (g.map fun t => t.1.bits).sum

/-- Character at line `i`, column `j` of a rendering result. -/
def lineAt (r : Option (List (List Char))) (i j : Nat) : Option Char :=
  match r with
  | none => none
  | some ls => ls[i]?.bind fun l => l[j]?

/-- End bit of the last field of a row group (0 for an empty group). -/
def lastEnd : List (PField × Nat × Nat) → Nat
  | [] => 0
  | [t] => t.2.2
  | _ :: t :: rest => lastEnd (t :: rest)

/-- `chainFrom a g` checks that the bit spans of `g` are contiguous and
non-overlapping starting at bit `a`: each field starts where the previous
one ended (+1) and spans exactly its declared width
(`end + 1 = start + bits`). -/
def chainFrom : Nat → List (PField × Nat × Nat) → Bool
  | _, [] => true
  | a, t :: rest =>
    (t.2.1 == a) && (t.2.2 + 1 == t.2.1 + t.1.bits) && chainFrom (t.2.2 + 1) rest

/-- A well-formed row group: non-empty, contiguous from its first start bit,
and fitting inside one 32-bit row (`first_start + total_width ≤ 32`). -/
def groupOk (g : List (PField × Nat × Nat)) : Bool :=
  match g with
  | [] => false
  | t :: _ => chainFrom t.2.1 g && decide (t.2.1 + widthSum g ≤ 32)

/-- A well-formed packed block: row groups are `groupOk` and hold only
fields of at most 32 bits; wide blocks hold a field of more than 32 bits. -/
def goodBlock : Block → Bool
  | Block.row g => groupOk g && g.all fun t => decide (t.1.bits ≤ 32)
  | Block.wide f => decide (32 < f.bits)

/-! Concrete inputs used by counterexamples and witnesses. -/

/-- Fields of 20, 20 and 24 bits: all widths at most 32, summing to 64. -/
def exC1 : List PField := [⟨"A", 20, none⟩, ⟨"B", 20, none⟩, ⟨"C", 24, none⟩]

/-- A 40-bit wide field followed by an 8-bit field. -/
def exC2 : List PField := [⟨"A", 40, none⟩, ⟨"B", 8, none⟩]

/-- The end-to-end example field list of the specification. -/
def exC3 : List PField :=
  [⟨"Version", 4, none⟩, ⟨"Type", 4, none⟩, ⟨"Length", 24, none⟩]

/-- The row group the packer produces for `exC3`. -/
def exC3group : List (PField × Nat × Nat) :=
  [(⟨"Version", 4, none⟩, 0, 3), (⟨"Type", 4, none⟩, 4, 7),
   (⟨"Length", 24, none⟩, 8, 31)]

/-- A 140-character field name. -/
def longName140 : String := String.mk (List.replicate 140 'a')

/-- A 70-character field name. -/
def longName70 : String := String.mk (List.replicate 70 'a')

/-- A protocol with a single 4-bit field whose name has 140 characters. -/
def pC6 : Protocol := ⟨some "X", none, none, [⟨longName140, 4, none⟩]⟩

/-! Packer lemmas. -/

lemma flushRow_eq (blocks : List Block) (g : List (PField × Nat × Nat)) :
    flushRow blocks g = blocks ++ if g.isEmpty then [] else [Block.row g] := by
  unfold flushRow
  split <;> simp

lemma packStep_wide (s : PackState) (f : PField) (h : 32 < f.bits) :
    packStep s f =
      { bitPos := (if s.bitPos % 32 ≠ 0 then ((s.bitPos + 31) / 32) * 32
          else s.bitPos) + f.bits,
        rowFields := [],
        blocks := flushRow s.blocks s.rowFields ++ [Block.wide f] } := by
  simp [packStep, h]

lemma packStep_small_keep (s : PackState) (f : PField) (h : ¬ 32 < f.bits)
    (hov : ¬ 32 < s.bitPos % 32 + f.bits)
    (hfl : ¬ (s.bitPos + f.bits) % 32 = 0) :
    packStep s f =
      { bitPos := s.bitPos + f.bits,
        rowFields := s.rowFields ++
          [(f, s.bitPos % 32, s.bitPos % 32 + f.bits - 1)],
        blocks := s.blocks } := by
  simp [packStep, h, hov, hfl]

lemma packStep_small_flush (s : PackState) (f : PField) (h : ¬ 32 < f.bits)
    (hov : ¬ 32 < s.bitPos % 32 + f.bits)
    (hfl : (s.bitPos + f.bits) % 32 = 0) :
    packStep s f =
      { bitPos := s.bitPos + f.bits,
        rowFields := [],
        blocks := s.blocks ++ [Block.row (s.rowFields ++
          [(f, s.bitPos % 32, s.bitPos % 32 + f.bits - 1)])] } := by
  simp [packStep, h, hov, hfl]

lemma packStep_ovf_keep (s : PackState) (f : PField) (h : ¬ 32 < f.bits)
    (hov : 32 < s.bitPos % 32 + f.bits)
    (hfl : ¬ (((s.bitPos + 31) / 32) * 32 + f.bits) % 32 = 0) :
    packStep s f =
      { bitPos := ((s.bitPos + 31) / 32) * 32 + f.bits,
        rowFields := [(f, 0, f.bits - 1)],
        blocks := flushRow s.blocks s.rowFields } := by
  simp [packStep, h, hov, hfl]

lemma packStep_ovf_flush (s : PackState) (f : PField) (h : ¬ 32 < f.bits)
    (hov : 32 < s.bitPos % 32 + f.bits)
    (hfl : (((s.bitPos + 31) / 32) * 32 + f.bits) % 32 = 0) :
    packStep s f =
      { bitPos := ((s.bitPos + 31) / 32) * 32 + f.bits,
        rowFields := [],
        blocks := flushRow s.blocks s.rowFields ++
          [Block.row [(f, 0, f.bits - 1)]] } := by
  simp [packStep, h, hov, hfl]

lemma widthSum_nil : widthSum [] = 0 := rfl

lemma widthSum_cons (t : PField × Nat × Nat) (g : List (PField × Nat × Nat)) :
    widthSum (t :: g) = t.1.bits + widthSum g := by
  simp [widthSum]

lemma widthSum_append_one (g : List (PField × Nat × Nat)) (t : PField × Nat × Nat) :
    widthSum (g ++ [t]) = widthSum g + t.1.bits := by
  simp [widthSum]

lemma chainFrom_append (g : List (PField × Nat × Nat)) (a : Nat) (f : PField)
    (st en : Nat) (hc : chainFrom a g = true) (hst : st = a + widthSum g)
    (hen : en + 1 = st + f.bits) : chainFrom a (g ++ [(f, st, en)]) = true := by
  induction g generalizing a with
  | nil =>
    simp [widthSum] at hst
    simp [chainFrom, hst, hen]
  | cons t rest ih =>
    simp only [chainFrom, Bool.and_eq_true, beq_iff_eq] at hc
    obtain ⟨⟨ha, hbits⟩, hrest⟩ := hc
    simp only [List.cons_append, chainFrom, Bool.and_eq_true, beq_iff_eq]
    refine ⟨⟨ha, hbits⟩, ?_⟩
    refine ih (t.2.2 + 1) hrest ?_
    rw [widthSum_cons] at hst
    omega

lemma chainFrom_lastEnd (g : List (PField × Nat × Nat)) (a : Nat)
    (hne : g ≠ []) (hc : chainFrom a g = true) :
    lastEnd g + 1 = a + widthSum g := by
  induction g generalizing a with
  | nil => exact absurd rfl hne
  | cons t rest ih =>
    simp only [chainFrom, Bool.and_eq_true, beq_iff_eq] at hc
    obtain ⟨⟨ha, hbits⟩, hrest⟩ := hc
    cases rest with
    | nil =>
      simp [lastEnd, widthSum]
      omega
    | cons u rest2 =>
      have step : lastEnd (t :: u :: rest2) = lastEnd (u :: rest2) := rfl
      rw [step, ih (t.2.2 + 1) (by simp) hrest]
      simp only [widthSum_cons]
      omega

lemma chainFrom_mem_ends (g : List (PField × Nat × Nat)) (a : Nat)
    (hc : chainFrom a g = true) :
    ∀ t ∈ g, t.2.2 + 1 = t.2.1 + t.1.bits ∧ t.2.2 + 1 ≤ a + widthSum g := by
  induction g generalizing a with
  | nil => intro t ht; cases ht
  | cons u rest ih =>
    simp only [chainFrom, Bool.and_eq_true, beq_iff_eq] at hc
    obtain ⟨⟨ha, hbits⟩, hrest⟩ := hc
    intro t ht
    rw [widthSum_cons]
    rcases List.mem_cons.mp ht with h1 | h1
    · subst h1
      have hnn : 0 ≤ widthSum rest := Nat.zero_le _
      exact ⟨hbits, by omega⟩
    · have h2 := ih (u.2.2 + 1) hrest t h1
      exact ⟨h2.1, by omega⟩

lemma groupOk_of_chain (g : List (PField × Nat × Nat)) (a : Nat)
    (hne : g ≠ []) (hc : chainFrom a g = true)
    (hle : a + widthSum g ≤ 32) : groupOk g = true := by
  cases g with
  | nil => exact absurd rfl hne
  | cons t rest =>
    have ha : t.2.1 = a := by
      simp only [chainFrom, Bool.and_eq_true, beq_iff_eq] at hc
      exact hc.1.1
    simp only [groupOk, Bool.and_eq_true, decide_eq_true_eq]
    rw [ha]
    exact ⟨hc, hle⟩

lemma groupOk_single (f : PField) (hf : 1 ≤ f.bits) (hle : f.bits ≤ 32) :
    groupOk [(f, 0, f.bits - 1)] = true := by
  refine groupOk_of_chain _ 0 (by simp) ?_ ?_
  · simp [chainFrom]
    omega
  · simp [widthSum]
    omega

lemma groupOk_facts (g : List (PField × Nat × Nat)) (hg : groupOk g = true) :
    g ≠ [] ∧ widthSum g ≤ 32 ∧ lastEnd g ≤ 31 ∧
      ∀ t ∈ g, t.2.2 + 1 = t.2.1 + t.1.bits ∧ t.2.2 ≤ 31 := by
  cases g with
  | nil => simp [groupOk] at hg
  | cons u rest =>
    simp only [groupOk, Bool.and_eq_true, decide_eq_true_eq] at hg
    obtain ⟨hc, hle⟩ := hg
    have hlast := chainFrom_lastEnd (u :: rest) u.2.1 (by simp) hc
    have hmem := chainFrom_mem_ends (u :: rest) u.2.1 hc
    refine ⟨by simp, by omega, by omega, ?_⟩
    intro t ht
    have h2 := hmem t ht
    exact ⟨h2.1, by omega⟩

/-- Invariant of the packing loop, for fields of positive width: the pending
row is contiguous, ends exactly at `bit_pos mod 32`, holds only small
fields, and every flushed block is well formed. -/
def stateOk (s : PackState) : Prop :=
  widthSum s.rowFields ≤ s.bitPos % 32 ∧
  chainFrom (s.bitPos % 32 - widthSum s.rowFields) s.rowFields = true ∧
  (∀ t ∈ s.rowFields, t.1.bits ≤ 32) ∧
  (∀ b ∈ s.blocks, goodBlock b = true)

lemma stateOk_mk (b : Nat) (rf : List (PField × Nat × Nat)) (bl : List Block)
    (h1 : widthSum rf ≤ b % 32)
    (h2 : chainFrom (b % 32 - widthSum rf) rf = true)
    (h3 : ∀ t ∈ rf, t.1.bits ≤ 32)
    (h4 : ∀ bb ∈ bl, goodBlock bb = true) :
    stateOk ⟨b, rf, bl⟩ := ⟨h1, h2, h3, h4⟩

lemma stateOk_init : stateOk initState := by
  refine ⟨Nat.le_refl 0, rfl, ?_, ?_⟩ <;> intro t ht <;> cases ht

lemma stateOk_pending_group (s : PackState) (hs : stateOk s)
    (hne : s.rowFields ≠ []) : groupOk s.rowFields = true := by
  obtain ⟨h1, h2, _, _⟩ := hs
  refine groupOk_of_chain s.rowFields (s.bitPos % 32 - widthSum s.rowFields) hne h2 ?_
  have hm : s.bitPos % 32 < 32 := Nat.mod_lt _ (by omega)
  omega

lemma flushRow_good (blocks : List Block) (g : List (PField × Nat × Nat))
    (hb : ∀ b ∈ blocks, goodBlock b = true)
    (hg : g ≠ [] → goodBlock (Block.row g) = true) :
    ∀ b ∈ flushRow blocks g, goodBlock b = true := by
  rw [flushRow_eq]
  intro b hbmem
  rcases List.mem_append.mp hbmem with h | h
  · exact hb b h
  · rcases g with _ | ⟨u, rest⟩
    · simp at h
    · simp at h
      rw [h]
      exact hg (by simp)

lemma packStep_stateOk (s : PackState) (f : PField) (hs : stateOk s)
    (hf : 1 ≤ f.bits) : stateOk (packStep s f) := by
  obtain ⟨h1, h2, h3, h4⟩ := hs
  have hm : s.bitPos % 32 < 32 := Nat.mod_lt _ (by omega)
  have hgood : s.rowFields ≠ [] → goodBlock (Block.row s.rowFields) = true := by
    intro hne
    simp only [goodBlock, Bool.and_eq_true]
    refine ⟨stateOk_pending_group s ⟨h1, h2, h3, h4⟩ hne, ?_⟩
    rw [List.all_eq_true]
    intro t ht
    simpa using h3 t ht
  have hflushed : ∀ b ∈ flushRow s.blocks s.rowFields, goodBlock b = true :=
    flushRow_good s.blocks s.rowFields h4 hgood
  by_cases hw : 32 < f.bits
  · rw [packStep_wide s f hw]
    refine stateOk_mk _ _ _ (by simp [widthSum]) (by simp [chainFrom]) (by simp) ?_
    intro b hb
    rcases List.mem_append.mp hb with h | h
    · exact hflushed b h
    · simp only [List.mem_singleton] at h
      rw [h]
      simp [goodBlock, hw]
  · by_cases hov : 32 < s.bitPos % 32 + f.bits
    · by_cases hfl : (((s.bitPos + 31) / 32) * 32 + f.bits) % 32 = 0
      · rw [packStep_ovf_flush s f hw hov hfl]
        refine stateOk_mk _ _ _ (by simp [widthSum]) (by simp [chainFrom])
          (by intro t ht; cases ht) ?_
        intro b hb
        rcases List.mem_append.mp hb with h | h
        · exact hflushed b h
        · simp only [List.mem_singleton] at h
          rw [h]
          simp only [goodBlock, Bool.and_eq_true]
          refine ⟨groupOk_single f hf (by omega), ?_⟩
          simp
          omega
      · rw [packStep_ovf_keep s f hw hov hfl]
        have hb32 : f.bits < 32 := by omega
        refine stateOk_mk _ _ _ ?_ ?_ ?_ hflushed
        · simp only [widthSum_cons, widthSum_nil]
          omega
        · have ha : (((s.bitPos + 31) / 32) * 32 + f.bits) % 32 -
              widthSum [(f, 0, f.bits - 1)] = 0 := by
            simp only [widthSum_cons, widthSum_nil]
            omega
          rw [ha]
          simp [chainFrom]
          omega
        · intro t ht
          simp only [List.mem_singleton] at ht
          rw [ht]
          show f.bits ≤ 32
          omega
    · have hchainApp : chainFrom (s.bitPos % 32 - widthSum s.rowFields)
          (s.rowFields ++ [(f, s.bitPos % 32, s.bitPos % 32 + f.bits - 1)]) =
          true :=
        chainFrom_append s.rowFields _ f _ _ h2 (by omega) (by omega)
      have hws : widthSum (s.rowFields ++
            [(f, s.bitPos % 32, s.bitPos % 32 + f.bits - 1)]) =
          widthSum s.rowFields + f.bits := by
        rw [widthSum_append_one]
      have hsmalls : ∀ t ∈ s.rowFields ++
          [(f, s.bitPos % 32, s.bitPos % 32 + f.bits - 1)], t.1.bits ≤ 32 := by
        intro t ht
        rcases List.mem_append.mp ht with h | h
        · exact h3 t h
        · simp only [List.mem_singleton] at h
          rw [h]
          show f.bits ≤ 32
          omega
      by_cases hfl : (s.bitPos + f.bits) % 32 = 0
      · rw [packStep_small_flush s f hw hov hfl]
        refine stateOk_mk _ _ _ (by simp [widthSum]) (by simp [chainFrom])
          (by intro t ht; cases ht) ?_
        intro b hb
        rcases List.mem_append.mp hb with h | h
        · exact h4 b h
        · simp only [List.mem_singleton] at h
          rw [h]
          simp only [goodBlock, Bool.and_eq_true]
          constructor
          · refine groupOk_of_chain _ (s.bitPos % 32 - widthSum s.rowFields)
              (by simp) hchainApp ?_
            rw [hws]
            omega
          · rw [List.all_eq_true]
            intro t ht
            simpa using hsmalls t ht
      · rw [packStep_small_keep s f hw hov hfl]
        refine stateOk_mk _ _ _ ?_ ?_ hsmalls h4
        · rw [hws]
          omega
        · have heq : (s.bitPos + f.bits) % 32 - widthSum (s.rowFields ++
              [(f, s.bitPos % 32, s.bitPos % 32 + f.bits - 1)]) =
              s.bitPos % 32 - widthSum s.rowFields := by
            rw [hws]
            omega
          rw [heq]
          exact hchainApp

lemma packLoop_stateOk (l : List PField) (s : PackState) (hs : stateOk s)
    (hl : ∀ f ∈ l, 1 ≤ f.bits) : stateOk (packLoop s l) := by
  induction l generalizing s with
  | nil => exact hs
  | cons f rest ih =>
    refine ih (packStep s f) ?_ ?_
    · exact packStep_stateOk s f hs (hl f (by simp))
    · intro g hg
      exact hl g (by simp [hg])

lemma pack_goodBlocks (fields : List PField)
    (h : ∀ f ∈ fields, 1 ≤ f.bits) :
    ∀ b ∈ pack fields, goodBlock b = true := by
  have hs := packLoop_stateOk fields initState stateOk_init h
  unfold pack
  refine flushRow_good _ _ hs.2.2.2 ?_
  intro hne
  simp only [goodBlock, Bool.and_eq_true]
  constructor
  · exact stateOk_pending_group _ hs hne
  · rw [List.all_eq_true]
    intro t ht
    simpa using hs.2.2.1 t ht

lemma flushRow_of_ne (blocks : List Block) (g : List (PField × Nat × Nat))
    (h : g ≠ []) : flushRow blocks g = blocks ++ [Block.row g] := by
  rw [flushRow_eq]
  cases g with
  | nil => exact absurd rfl h
  | cons u rest => simp

lemma goodBlock_row (g : List (PField × Nat × Nat))
    (h : goodBlock (Block.row g) = true) :
    groupOk g = true ∧ ∀ t ∈ g, t.1.bits ≤ 32 := by
  simp only [goodBlock, Bool.and_eq_true, List.all_eq_true,
    decide_eq_true_eq] at h
  exact ⟨h.1, h.2⟩

/-- Counting invariant of the loop when every field has 1 to 32 bits:
the number of flushed blocks is `bit_pos / 32`, the pending row is empty
exactly on a 32-bit boundary, and only row groups are emitted. -/
def countState (s : PackState) : Prop :=
  s.blocks.length = s.bitPos / 32 ∧
  (s.rowFields = [] ↔ s.bitPos % 32 = 0) ∧
  ∀ b ∈ s.blocks, ∃ g, b = Block.row g

lemma countState_init : countState initState := by
  refine ⟨rfl, by simp [initState], ?_⟩
  intro b hb
  cases hb

lemma packStep_countState (s : PackState) (f : PField) (hs : countState s)
    (h1f : 1 ≤ f.bits) (h2f : f.bits ≤ 32) : countState (packStep s f) := by
  obtain ⟨hc1, hc2, hc3⟩ := hs
  have hw : ¬ 32 < f.bits := by omega
  have hm : s.bitPos % 32 < 32 := Nat.mod_lt _ (by omega)
  by_cases hov : 32 < s.bitPos % 32 + f.bits
  · have hne : s.rowFields ≠ [] := by
      intro h
      have := hc2.mp h
      omega
    have hfr := flushRow_of_ne s.blocks s.rowFields hne
    by_cases hfl : (((s.bitPos + 31) / 32) * 32 + f.bits) % 32 = 0
    · rw [packStep_ovf_flush s f hw hov hfl]
      refine ⟨?_, by simp [hfl], ?_⟩
      · rw [hfr]
        simp only [List.length_append, List.length_singleton]
        omega
      · intro b hb
        rw [hfr] at hb
        rcases List.mem_append.mp hb with h | h
        · rcases List.mem_append.mp h with h | h
          · exact hc3 b h
          · simp only [List.mem_singleton] at h
            exact ⟨s.rowFields, h⟩
        · simp only [List.mem_singleton] at h
          exact ⟨[(f, 0, f.bits - 1)], h⟩
    · rw [packStep_ovf_keep s f hw hov hfl]
      refine ⟨?_, ?_, ?_⟩
      · rw [hfr]
        simp only [List.length_append, List.length_singleton]
        omega
      · constructor
        · intro h
          exact absurd h (by simp)
        · intro h
          exact absurd h hfl
      · intro b hb
        rw [hfr] at hb
        rcases List.mem_append.mp hb with h | h
        · exact hc3 b h
        · simp only [List.mem_singleton] at h
          exact ⟨s.rowFields, h⟩
  · by_cases hfl : (s.bitPos + f.bits) % 32 = 0
    · rw [packStep_small_flush s f hw hov hfl]
      refine ⟨?_, by simp [hfl], ?_⟩
      · simp only [List.length_append, List.length_singleton]
        omega
      · intro b hb
        rcases List.mem_append.mp hb with h | h
        · exact hc3 b h
        · simp only [List.mem_singleton] at h
          exact ⟨_, h⟩
    · rw [packStep_small_keep s f hw hov hfl]
      refine ⟨?_, ?_, hc3⟩
      · show s.blocks.length = (s.bitPos + f.bits) / 32
        omega
      · constructor
        · intro h
          exact absurd h (by simp)
        · intro h
          exact absurd h hfl

lemma packLoop_countState (l : List PField) :
    ∀ (s : PackState), countState s → (∀ f ∈ l, 1 ≤ f.bits ∧ f.bits ≤ 32) →
    countState (packLoop s l) := by
  induction l with
  | nil =>
    intro s hs _
    exact hs
  | cons f rest ih =>
    intro s hs hl
    refine ih (packStep s f) ?_ ?_
    · exact packStep_countState s f hs (hl f (by simp)).1 (hl f (by simp)).2
    · intro g hg
      exact hl g (by simp [hg])

lemma packStep_blocks_prefix (s : PackState) (f : PField) :
    ∃ tail, (packStep s f).blocks = s.blocks ++ tail := by
  by_cases hw : 32 < f.bits
  · rw [packStep_wide s f hw, flushRow_eq]
    exact ⟨_, by rw [List.append_assoc]⟩
  · by_cases hov : 32 < s.bitPos % 32 + f.bits
    · by_cases hfl : (((s.bitPos + 31) / 32) * 32 + f.bits) % 32 = 0
      · rw [packStep_ovf_flush s f hw hov hfl, flushRow_eq]
        exact ⟨_, by rw [List.append_assoc]⟩
      · rw [packStep_ovf_keep s f hw hov hfl, flushRow_eq]
        exact ⟨_, rfl⟩
    · by_cases hfl : (s.bitPos + f.bits) % 32 = 0
      · rw [packStep_small_flush s f hw hov hfl]
        exact ⟨_, rfl⟩
      · rw [packStep_small_keep s f hw hov hfl]
        exact ⟨[], by simp⟩

lemma packLoop_mem_mono (l : List PField) :
    ∀ (s : PackState) (b : Block), b ∈ s.blocks → b ∈ (packLoop s l).blocks := by
  induction l with
  | nil =>
    intro s b hb
    exact hb
  | cons f rest ih =>
    intro s b hb
    refine ih (packStep s f) b ?_
    obtain ⟨tail, ht⟩ := packStep_blocks_prefix s f
    rw [ht]
    exact List.mem_append_left _ hb

lemma packStep_wide_mem (s : PackState) (f : PField) (hw : 32 < f.bits) :
    Block.wide f ∈ (packStep s f).blocks := by
  rw [packStep_wide s f hw]
  simp

lemma packLoop_wide_mem (l : List PField) (f : PField) (hw : 32 < f.bits) :
    ∀ (s : PackState), f ∈ l → Block.wide f ∈ (packLoop s l).blocks := by
  induction l with
  | nil =>
    intro s hf
    cases hf
  | cons f0 rest ih =>
    intro s hf
    rcases List.mem_cons.mp hf with h | h
    · subst h
      exact packLoop_mem_mono rest (packStep s f) _ (packStep_wide_mem s f hw)
    · exact ih (packStep s f0) h

lemma pack_mem_of_loop (fields : List PField) (b : Block)
    (hb : b ∈ (packLoop initState fields).blocks) : b ∈ pack fields := by
  unfold pack
  rw [flushRow_eq]
  exact List.mem_append_left _ hb

/-- C1, amended: for fields of positive width at most 32 whose widths sum
to a multiple of 32, the packer emits only row groups, each with widths
summing to at most 32, and it emits exactly `ceil(C / 32)` of them where
`C` is the final bit-cursor value (the total bits plus the padding
inserted whenever a row closes early; `C` equals the total bits exactly
when no row closes early). -/
theorem c1_amended_row_count (fields : List PField)
    (h : ∀ f ∈ fields, 1 ≤ f.bits ∧ f.bits ≤ 32)
    (_hsum : sumBits fields % 32 = 0) :
    (pack fields).length = ((packLoop initState fields).bitPos + 31) / 32 ∧
    ∀ b ∈ pack fields, ∃ g, b = Block.row g ∧ widthSum g ≤ 32 := by
  have hcount := packLoop_countState fields initState countState_init h
  have hgoodAll := pack_goodBlocks fields fun f hf => (h f hf).1
  obtain ⟨hl, hiff, hrows⟩ := hcount
  constructor
  · unfold pack
    rw [flushRow_eq]
    by_cases hrf : (packLoop initState fields).rowFields = []
    · have h0 := hiff.mp hrf
      rw [hrf]
      simp only [List.isEmpty_nil, if_true, List.append_nil]
      omega
    · have h0 : ¬ (packLoop initState fields).bitPos % 32 = 0 :=
        fun hmod => hrf (hiff.mpr hmod)
      cases hrfe : (packLoop initState fields).rowFields with
      | nil => exact absurd hrfe hrf
      | cons u rest =>
        simp only [List.isEmpty_cons, Bool.false_eq_true, if_false,
          List.length_append, List.length_singleton]
        omega
  · intro b hb
    have hg := hgoodAll b hb
    have hrow : ∃ g, b = Block.row g := by
      unfold pack at hb
      rw [flushRow_eq] at hb
      rcases List.mem_append.mp hb with hmem | hmem
      · exact hrows b hmem
      · rcases hrfe : (packLoop initState fields).rowFields with _ | ⟨u, rest⟩
        · rw [hrfe] at hmem
          simp at hmem
        · rw [hrfe] at hmem
          simp at hmem
          exact ⟨u :: rest, hmem⟩
    obtain ⟨g, hgeq⟩ := hrow
    subst hgeq
    obtain ⟨hgok, _⟩ := goodBlock_row g hg
    exact ⟨g, rfl, (groupOk_facts g hgok).2.1⟩

/-- Fields used by the C1 witness. -/
def wfC1 : List PField := [⟨"A", 16, none⟩, ⟨"B", 16, none⟩]

/-- C1, witness: the amended theorem applied to two 16-bit fields. -/
theorem c1_witness :
    (pack wfC1).length = ((packLoop initState wfC1).bitPos + 31) / 32 ∧
    ∀ b ∈ pack wfC1, ∃ g, b = Block.row g ∧ widthSum g ≤ 32 :=
  c1_amended_row_count wfC1 (by decide) (by decide)

/-- C2, amended: a field wider than 32 bits never lands in a row group
(row groups contain only fields of at most 32 bits) and always yields a
dedicated wide block; when such a field is processed, any pending row is
flushed, the bit cursor is aligned up to the next 32-bit boundary before
the block, and the cursor afterwards is that boundary plus the field's
width — no realignment happens after the wide field. -/
theorem c2_amended_wide_blocks :
    (∀ fields, (∀ f ∈ fields, 1 ≤ f.bits) → ∀ g, Block.row g ∈ pack fields →
      ∀ t ∈ g, t.1.bits ≤ 32) ∧
    (∀ fields f, f ∈ fields → 32 < f.bits → Block.wide f ∈ pack fields) ∧
    (∀ s f, 32 < f.bits →
      (packStep s f).bitPos = ((s.bitPos + 31) / 32) * 32 + f.bits ∧
      (packStep s f).rowFields = [] ∧
      (packStep s f).blocks = flushRow s.blocks s.rowFields ++ [Block.wide f]) := by
  refine ⟨?_, ?_, ?_⟩
  · intro fields hpos g hg t ht
    have hgood := pack_goodBlocks fields hpos _ hg
    exact (goodBlock_row g hgood).2 t ht
  · intro fields f hf hw
    exact pack_mem_of_loop fields _ (packLoop_wide_mem fields f hw initState hf)
  · intro s f hw
    rw [packStep_wide s f hw]
    refine ⟨?_, rfl, rfl⟩
    by_cases h0 : s.bitPos % 32 ≠ 0
    · simp [h0]
    · simp only [h0, if_false]
      simp at h0
      omega

/-- C2, witness: the amended theorem applied to the 40-bit field of `exC2`
followed by an 8-bit field, and to a concrete loop state. -/
theorem c2_witness :
    (∀ t ∈ [((⟨"B", 8, none⟩ : PField), 8, 15)], t.1.bits ≤ 32) ∧
    Block.wide ⟨"A", 40, none⟩ ∈ pack exC2 ∧
    (packStep initState ⟨"A", 40, none⟩).bitPos = ((0 + 31) / 32) * 32 + 40 := by
  refine ⟨?_, ?_, ?_⟩
  · exact c2_amended_wide_blocks.1 exC2 (by decide) _ (by decide)
  · exact c2_amended_wide_blocks.2.1 exC2 ⟨"A", 40, none⟩ (by decide) (by decide)
  · exact (c2_amended_wide_blocks.2.2 initState ⟨"A", 40, none⟩ (by decide)).1

/-- C4: every row group the packer emits (for positive bit widths) is
non-empty, contiguous and non-overlapping (`end + 1 = start + bits` and
each field starts where the previous ended), has its last end bit at most
31, total packed width at most 32, and contains no field wider than 32
bits (so no small field is ever split); and a small field that does not
fit in the current row makes the packer close that row and start the
field on a fresh row at start bit 0. -/
theorem c4_row_group_invariants :
    (∀ fields, (∀ f ∈ fields, 1 ≤ f.bits) → ∀ g, Block.row g ∈ pack fields →
      groupOk g = true ∧ g ≠ [] ∧ widthSum g ≤ 32 ∧ lastEnd g ≤ 31 ∧
      ∀ t ∈ g, t.2.2 + 1 = t.2.1 + t.1.bits ∧ t.2.2 ≤ 31 ∧ t.1.bits ≤ 32) ∧
    (∀ s f, 1 ≤ f.bits → f.bits ≤ 32 → 32 < s.bitPos % 32 + f.bits →
      (packStep s f).rowFields = [(f, 0, f.bits - 1)] ∨
      ((packStep s f).rowFields = [] ∧
        Block.row [(f, 0, f.bits - 1)] ∈ (packStep s f).blocks)) := by
  constructor
  · intro fields hpos g hg
    have hgood := pack_goodBlocks fields hpos _ hg
    obtain ⟨hgok, hsmall⟩ := goodBlock_row g hgood
    obtain ⟨hne, hws, hlast, hmem⟩ := groupOk_facts g hgok
    refine ⟨hgok, hne, hws, hlast, ?_⟩
    intro t ht
    exact ⟨(hmem t ht).1, (hmem t ht).2, hsmall t ht⟩
  · intro s f h1f h2f hov
    have hw : ¬ 32 < f.bits := by omega
    by_cases hfl : (((s.bitPos + 31) / 32) * 32 + f.bits) % 32 = 0
    · right
      rw [packStep_ovf_flush s f hw hov hfl]
      exact ⟨rfl, by simp⟩
    · left
      rw [packStep_ovf_keep s f hw hov hfl]

/-- C4, witness: the first part applied to an 8-bit and a 24-bit field,
the second to a state holding a pending 20-bit field when a 24-bit field
arrives. -/
theorem c4_witness :
    (groupOk [((⟨"A", 8, none⟩ : PField), 0, 7), (⟨"B", 24, none⟩, 8, 31)] = true ∧
      [((⟨"A", 8, none⟩ : PField), 0, 7), (⟨"B", 24, none⟩, 8, 31)] ≠ [] ∧
      widthSum [((⟨"A", 8, none⟩ : PField), 0, 7), (⟨"B", 24, none⟩, 8, 31)] ≤ 32 ∧
      lastEnd [((⟨"A", 8, none⟩ : PField), 0, 7), (⟨"B", 24, none⟩, 8, 31)] ≤ 31 ∧
      ∀ t ∈ [((⟨"A", 8, none⟩ : PField), 0, 7), (⟨"B", 24, none⟩, 8, 31)],
        t.2.2 + 1 = t.2.1 + t.1.bits ∧ t.2.2 ≤ 31 ∧ t.1.bits ≤ 32) ∧
    ((packStep ⟨20, [(⟨"X", 20, none⟩, 0, 19)], []⟩ ⟨"C", 24, none⟩).rowFields =
        [(⟨"C", 24, none⟩, 0, 23)] ∨
      ((packStep ⟨20, [(⟨"X", 20, none⟩, 0, 19)], []⟩ ⟨"C", 24, none⟩).rowFields = [] ∧
        Block.row [(⟨"C", 24, none⟩, 0, 23)] ∈
          (packStep ⟨20, [(⟨"X", 20, none⟩, 0, 19)], []⟩ ⟨"C", 24, none⟩).blocks)) := by
  constructor
  · exact c4_row_group_invariants.1 [⟨"A", 8, none⟩, ⟨"B", 24, none⟩] (by decide)
      [(⟨"A", 8, none⟩, 0, 7), (⟨"B", 24, none⟩, 8, 31)] (by decide)
  · exact c4_row_group_invariants.2 ⟨20, [(⟨"X", 20, none⟩, 0, 19)], []⟩
      ⟨"C", 24, none⟩ (by decide) (by decide) (by decide)

/-- C1, counterexample: the fields of `exC1` all have width at most 32 and
their widths sum to 64, a multiple of 32, yet the packer emits 3 row groups
while ceil(64/32) = 2, and the middle group's widths sum to 20, not 32
(the first row closes early when the second field does not fit). -/
theorem c1_counterexample :
    (∀ f ∈ exC1, 1 ≤ f.bits ∧ f.bits ≤ 32) ∧ sumBits exC1 % 32 = 0 ∧
    (pack exC1).length = 3 ∧ (sumBits exC1 + 31) / 32 = 2 ∧
    ¬ (pack exC1).length = (sumBits exC1 + 31) / 32 ∧
    (pack exC1)[1]? = some (Block.row [(⟨"B", 20, none⟩, 0, 19)]) ∧
    ¬ widthSum [((⟨"B", 20, none⟩ : PField), 0, 19)] = 32 := by decide

/-- C2, counterexample: after the 40-bit wide field of `exC2` the bit
cursor is 40, which is not a 32-bit boundary, and the following 8-bit
field is packed at start bit 8 of its row — the cursor is not realigned
after a wide field. -/
theorem c2_counterexample :
    pack exC2 = [Block.wide ⟨"A", 40, none⟩, Block.row [(⟨"B", 8, none⟩, 8, 15)]] ∧
    (packLoop initState [⟨"A", 40, none⟩]).bitPos = 40 ∧
    ¬ (40 : Nat) % 32 = 0 ∧ ¬ (8 : Nat) = 0 := by decide

/-- C3, counterexample: the example fields do pack into the single row group
with bit spans 0-3, 4-7, 8-31, but the character-column spans the renderer
centers into have widths 7, 7 and 47 (`char_end - char_start` with
`char_start = start*2+1`, `char_end = end*2+2`), not 8, 8 and 47. -/
theorem c3_counterexample :
    pack exC3 = [Block.row exC3group] ∧
    (exC3group.map fun t => charSpanWidth t.2.1 t.2.2) = [7, 7, 47] ∧
    ¬ ([7, 7, 47] : List Nat) = [8, 8, 47] := by decide

/-- C3, amended: the example fields pack into exactly one row group with
bit spans 0-3, 4-7 and 8-31, and the three labels are centered in
character-column spans of widths 7, 7 and 47; the rendered row is shown
explicitly. -/
theorem c3_amended_example :
    pack exC3 = [Block.row exC3group] ∧
    renderRow exC3group true = some
      ["┌────────┬───────┬──────────────────────────────────────────────┐".data,
       "│Version│ Type  │                    Length                     │".data] ∧
    (exC3group.map fun t => charSpanWidth t.2.1 t.2.2) = [7, 7, 47] := by decide

/-- C5, counterexample: for the row with fields at bits 0-3 and 4-31, the
label line has its separator at column 8 = end*2+2 (the boundary right
after the first field's span), but the top border has `'─'` there and its
`'┬'` one column further right, at column 9 = end*2+3; moreover in a row
whose single (hence last) field ends at bit 3 < 31, the label line still
gets a separator after that last field. -/
theorem c5_counterexample :
    lineAt (renderRow [(⟨"A", 4, none⟩, 0, 3), (⟨"B", 28, none⟩, 4, 31)] true) 1 8 =
      some '│' ∧
    lineAt (renderRow [(⟨"A", 4, none⟩, 0, 3), (⟨"B", 28, none⟩, 4, 31)] true) 0 8 =
      some '─' ∧
    ¬ ('─' = '┬') ∧
    lineAt (renderRow [(⟨"A", 4, none⟩, 0, 3), (⟨"B", 28, none⟩, 4, 31)] true) 0 9 =
      some '┬' ∧
    lineAt (renderRow [(⟨"A", 4, none⟩, 0, 3)] true) 1 8 = some '│' := by decide

set_option maxRecDepth 40000 in
/-- C6: rendering a 4-bit field whose 140-character name pushes the
computed character position below -65 raises `IndexError`
(`generate_diagram` fails), and a 70-character name makes the computed
positions negative, so Python's negative indexing writes the label's
characters wrapped around to the end of the line buffer — position 64
(the right border) and position 0 (the left border) both end up holding
`'a'` instead of being skipped. -/
theorem c6_long_label_raises :
    generate_diagram_lines pC6 = none ∧
    lineAt (renderRow [(⟨longName70, 4, none⟩, 0, 3)] true) 1 64 = some 'a' ∧
    lineAt (renderRow [(⟨longName70, 4, none⟩, 0, 3)] true) 1 0 = some 'a' := by decide

/-! Renderer lemmas. -/

lemma pyListSet_length (l : List Char) (i : Int) (c : Char) (l2 : List Char)
    (h : pyListSet l i c = some l2) : l2.length = l.length := by
  unfold pyListSet at h
  split at h
  all_goals simp only [] at h
  all_goals split at h
  all_goals first
  | (injection h with h2
     rw [← h2]
     simp)
  | cases h

lemma pyListSet_get (l : List Char) (iN : Nat) (c : Char) (hlt : iN < l.length) :
    pyListSet l (iN : Int) c = some (l.set iN c) := by
  unfold pyListSet
  have h0 : ¬ ((iN : Int) < 0) := by omega
  simp only [h0, if_false]
  rw [if_pos (by constructor <;> omega)]
  simp

lemma writeChars_length (cs : List Char) :
    ∀ (line : List Char) (pos charEnd : Int) (l2 : List Char),
      writeChars line cs pos charEnd = some l2 → l2.length = line.length := by
  induction cs with
  | nil =>
    intro line pos ce l2 h
    injection h with h2
    rw [← h2]
  | cons c rest ih =>
    intro line pos ce l2 h
    unfold writeChars at h
    split at h
    · cases hset : pyListSet line pos c with
      | none =>
        rw [hset] at h
        cases h
      | some lmid =>
        rw [hset] at h
        rw [ih lmid (pos + 1) ce l2 h]
        exact pyListSet_length line pos c lmid hset
    · exact ih line (pos + 1) ce l2 h

lemma writeField_length (line : List Char) (t : PField × Nat × Nat)
    (l2 : List Char) (h : writeField line t = some l2) :
    l2.length = line.length := by
  simp only [writeField] at h
  split at h
  · cases h
  · rename_i lmid heq
    have hmid := writeChars_length _ _ _ _ _ heq
    split at h
    · rw [pyListSet_length lmid _ _ l2 h]
      exact hmid
    · injection h with h2
      rw [← h2]
      exact hmid

lemma writeDescField_length (line : List Char) (t : PField × Nat × Nat)
    (l2 : List Char) (h : writeDescField line t = some l2) :
    l2.length = line.length := by
  simp only [writeDescField] at h
  split at h
  · cases h
  · rename_i lmid heq
    have hmid : lmid.length = line.length := by
      split at heq
      · injection heq with h2
        rw [← h2]
      · exact writeChars_length _ _ _ _ _ heq
    split at h
    · split at h
      · rw [pyListSet_length lmid _ _ l2 h]
        exact hmid
      · injection h with h2
        rw [← h2]
        exact hmid
    · injection h with h2
      rw [← h2]
      exact hmid

lemma writeFields_length (g : List (PField × Nat × Nat)) :
    ∀ (line l2 : List Char), writeFields line g = some l2 →
      l2.length = line.length := by
  induction g with
  | nil =>
    intro line l2 h
    injection h with h2
    rw [← h2]
  | cons t rest ih =>
    intro line l2 h
    unfold writeFields at h
    split at h
    · cases h
    · rename_i lmid heq
      rw [ih lmid l2 h]
      exact writeField_length line t lmid heq

lemma writeDescFields_length (g : List (PField × Nat × Nat)) :
    ∀ (line l2 : List Char), writeDescFields line g = some l2 →
      l2.length = line.length := by
  induction g with
  | nil =>
    intro line l2 h
    injection h with h2
    rw [← h2]
  | cons t rest ih =>
    intro line l2 h
    unfold writeDescFields at h
    split at h
    · cases h
    · rename_i lmid heq
      rw [ih lmid l2 h]
      exact writeDescField_length line t lmid heq

lemma initLine_length : initLine.length = 65 := by
  simp [initLine]

lemma borderLine_length (g : List (PField × Nat × Nat)) (first : Bool) :
    (borderLine g first).length = 65 := by
  simp [borderLine]

lemma renderRow_lines (g : List (PField × Nat × Nat)) (first : Bool)
    (ls : List (List Char)) (h : renderRow g first = some ls) :
    ∀ l ∈ ls, l.length = 65 := by
  simp only [renderRow] at h
  split at h
  · cases h
  · rename_i nameLine heqn
    have hn : nameLine.length = 65 :=
      (writeFields_length g initLine nameLine heqn).trans initLine_length
    split at h
    · split at h
      · cases h
      · rename_i descLine heqd
        have hd : descLine.length = 65 :=
          (writeDescFields_length g initLine descLine heqd).trans initLine_length
        injection h with h2
        rw [← h2]
        intro l hl
        simp only [List.mem_cons, List.not_mem_nil, or_false] at hl
        rcases hl with h | h | h
        · rw [h]
          exact borderLine_length g first
        · rw [h]
          exact hn
        · rw [h]
          exact hd
    · injection h with h2
      rw [← h2]
      intro l hl
      simp only [List.mem_cons, List.not_mem_nil, or_false] at hl
      rcases hl with h | h
      · rw [h]
        exact borderLine_length g first
      · rw [h]
        exact hn

lemma renderWideField_lines (f : PField) (first : Bool)
    (ls : List (List Char)) (h : renderWideField f first = some ls) :
    ∀ l ∈ ls, l.length = 65 := by
  simp only [renderWideField] at h
  have hb : (wideBorder first).length = 65 := by
    simp [wideBorder]
  split at h
  · cases h
  · rename_i nameLine heqn
    have hn : nameLine.length = 65 :=
      (writeChars_length _ initLine _ _ nameLine heqn).trans initLine_length
    split at h
    · split at h
      · cases h
      · rename_i descLine heqd
        have hd : descLine.length = 65 :=
          (writeChars_length _ initLine _ _ descLine heqd).trans initLine_length
        injection h with h2
        rw [← h2]
        intro l hl
        simp only [List.mem_cons, List.not_mem_nil, or_false] at hl
        rcases hl with h | h | h
        · rw [h]
          exact hb
        · rw [h]
          exact hn
        · rw [h]
          exact hd
    · injection h with h2
      rw [← h2]
      intro l hl
      simp only [List.mem_cons, List.not_mem_nil, or_false] at hl
      rcases hl with h | h
      · rw [h]
        exact hb
      · rw [h]
        exact hn

lemma renderBlock_lines (b : Block) (first : Bool) (ls : List (List Char))
    (h : renderBlock b first = some ls) : ∀ l ∈ ls, l.length = 65 := by
  cases b with
  | row g => exact renderRow_lines g first ls h
  | wide f => exact renderWideField_lines f first ls h

lemma renderBlocks_lines (bs : List Block) :
    ∀ (first : Bool) (ls : List (List Char)), renderBlocks bs first = some ls →
      ∀ l ∈ ls, l.length = 65 := by
  induction bs with
  | nil =>
    intro first ls h
    injection h with h2
    rw [← h2]
    intro l hl
    cases hl
  | cons b rest ih =>
    intro first ls h
    unfold renderBlocks at h
    split at h
    · cases h
    · rename_i ls1 heq1
      split at h
      · cases h
      · rename_i ls2 heq2
        injection h with h2
        rw [← h2]
        intro l hl
        rcases List.mem_append.mp hl with hm | hm
        · exact renderBlock_lines b first ls1 heq1 l hm
        · exact ih false ls2 heq2 l hm

/-- C10: whenever `generate_diagram` returns without raising, every diagram
body line — each row border, name line, description line, wide-block line,
and the closing border — is exactly 65 characters long. -/
theorem c10_body_line_lengths (p : Protocol) (ls : List String)
    (h : generate_diagram_lines p = some ls) :
    ∃ body, renderBlocks (pack p.fields) true = some body ∧
      ls = titleLines p ++ [rulerA, rulerB] ++ body.map String.mk ++
        [closingStr] ++ noteLines p ∧
      (∀ s2 ∈ body.map String.mk, s2.length = 65) ∧
      closingStr.length = 65 := by
  unfold generate_diagram_lines at h
  cases hb : renderBlocks (pack p.fields) true with
  | none =>
    rw [hb] at h
    cases h
  | some body =>
    rw [hb] at h
    injection h with h2
    refine ⟨body, rfl, h2.symm, ?_, by decide⟩
    intro s2 hs2
    obtain ⟨l, hl, hleq⟩ := List.mem_map.mp hs2
    rw [← hleq]
    show l.length = 65
    exact renderBlocks_lines (pack p.fields) true body hb l hl

/-- Protocol used by the C10 witness. -/
def pC10 : Protocol := ⟨some "T", none, none, [⟨"Flags", 8, none⟩]⟩

/-- Line list `generate_diagram_lines` yields for `pC10`. -/
def lsC10 : List String :=
  ["T", "", rulerA, rulerB,
   "┌───────────────────────────────────────────────────────────────┐",
   "│     Flags     │                                               │",
   closingStr]

/-- C10, witness: the theorem applied to a one-field protocol. -/
theorem c10_witness :
    ∃ body, renderBlocks (pack pC10.fields) true = some body ∧
      lsC10 = titleLines pC10 ++ [rulerA, rulerB] ++ body.map String.mk ++
        [closingStr] ++ noteLines pC10 ∧
      (∀ s2 ∈ body.map String.mk, s2.length = 65) ∧
      closingStr.length = 65 :=
  c10_body_line_lengths pC10 lsC10 (by rfl)

lemma writeChars_overlay (cs : List Char) :
    ∀ (ln : List Char) (baseN ceN : Nat),
      ln.length = 65 → baseN + cs.length ≤ ceN → ceN ≤ 64 →
      ∃ l2, writeChars ln cs (baseN : Int) (ceN : Int) = some l2 ∧
        l2.length = 65 ∧
        ∀ j : Nat, l2[j]? =
          if baseN ≤ j ∧ j < baseN + cs.length then cs[j - baseN]?
          else ln[j]? := by
  induction cs with
  | nil =>
    intro ln baseN ceN hlen _ _
    refine ⟨ln, rfl, hlen, ?_⟩
    intro j
    rw [if_neg (by simp only [List.length_nil]; omega)]
  | cons c rest ih =>
    intro ln baseN ceN hlen hle hce
    have hg : (baseN : Int) < (ceN : Int) ∧ (baseN : Int) < 64 := by
      simp only [List.length_cons] at hle
      constructor <;> omega
    have hset : pyListSet ln (baseN : Int) c = some (ln.set baseN c) :=
      pyListSet_get ln baseN c (by simp only [List.length_cons] at hle; omega)
    obtain ⟨l2, hw, hlen2, hchar⟩ := ih (ln.set baseN c) (baseN + 1) ceN
      (by simp [hlen]) (by simp only [List.length_cons] at hle; omega) hce
    refine ⟨l2, ?_, hlen2, ?_⟩
    · show writeChars ln (c :: rest) (baseN : Int) (ceN : Int) = some l2
      unfold writeChars
      rw [if_pos hg, hset]
      have hcast : ((baseN : Int) + 1) = ((baseN + 1 : Nat) : Int) := by
        push_cast
        ring
      rw [hcast]
      exact hw
    · intro j
      rw [hchar j]
      by_cases h1 : baseN + 1 ≤ j ∧ j < baseN + 1 + rest.length
      · rw [if_pos h1, if_pos (by simp only [List.length_cons]; omega)]
        have hj : j - baseN = (j - (baseN + 1)) + 1 := by omega
        rw [hj, List.getElem?_cons_succ]
      · rw [if_neg h1]
        by_cases h2 : j = baseN
        · subst h2
          rw [if_pos (by simp only [List.length_cons]; omega)]
          rw [List.getElem?_set_self (by omega), Nat.sub_self]
          simp
        · rw [if_neg (by simp only [List.length_cons]; omega)]
          exact List.getElem?_set_ne (by omega)

lemma writeField_sep (ln : List Char) (t : PField × Nat × Nat) (l2 : List Char)
    (hlen : ln.length = 65) (hend : t.2.2 < 31)
    (h : writeField ln t = some l2) :
    l2[t.2.2 * 2 + 2]? = some '│' := by
  simp only [writeField] at h
  split at h
  · cases h
  · rename_i lmid heq
    have hmid : lmid.length = 65 :=
      (writeChars_length _ _ _ _ _ heq).trans hlen
    rw [if_pos ⟨hend, by omega⟩] at h
    have hcast : ((t.2.2 : Int) * 2 + 2) = ((t.2.2 * 2 + 2 : Nat) : Int) := by
      push_cast
      ring
    rw [hcast, pyListSet_get lmid _ '│' (by omega)] at h
    injection h with h2
    rw [← h2]
    exact List.getElem?_set_self (by omega)

lemma writeDescField_sep (ln : List Char) (t : PField × Nat × Nat)
    (l2 : List Char) (hlen : ln.length = 65) (hend : t.2.2 < 31)
    (h : writeDescField ln t = some l2) :
    l2[t.2.2 * 2 + 3]? = some '│' := by
  simp only [writeDescField] at h
  split at h
  · cases h
  · rename_i lmid heq
    have hmid : lmid.length = 65 := by
      split at heq
      · injection heq with h2
        rw [← h2]
        exact hlen
      · exact (writeChars_length _ _ _ _ _ heq).trans hlen
    rw [if_pos hend, if_pos (by omega : ((t.2.2 : Int) * 2 + 3) < 64)] at h
    have hcast : ((t.2.2 : Int) * 2 + 3) = ((t.2.2 * 2 + 3 : Nat) : Int) := by
      push_cast
      ring
    rw [hcast, pyListSet_get lmid _ '│' (by omega)] at h
    injection h with h2
    rw [← h2]
    exact List.getElem?_set_self (by omega)

lemma writeDescFields_last (g : List (PField × Nat × Nat)) :
    ∀ (ln l2 : List Char) (t : PField × Nat × Nat),
      writeDescFields ln g = some l2 → g.getLast? = some t → t.2.2 < 31 →
      ln.length = 65 → l2[t.2.2 * 2 + 3]? = some '│' := by
  induction g with
  | nil =>
    intro ln l2 t _ hlast _ _
    cases hlast
  | cons u rest ih =>
    intro ln l2 t h hlast hend hlen
    unfold writeDescFields at h
    split at h
    · cases h
    · rename_i lmid heq
      cases rest with
      | nil =>
        unfold writeDescFields at h
        injection h with h2
        have ht : t = u := by
          rw [List.getLast?_singleton] at hlast
          injection hlast with h3
          exact h3.symm
        rw [ht] at hend ⊢
        rw [← h2]
        exact writeDescField_sep ln u lmid hlen hend heq
      | cons v rest2 =>
        have hlast2 : (v :: rest2).getLast? = some t := by
          rw [← List.getLast?_cons_cons]
          exact hlast
        exact ih lmid l2 t h hlast2 hend
          ((writeDescField_length ln u lmid heq).trans hlen)

/-- C9: in the description line of a normal row the per-field separator is
written at character column `end*2+3` for every field whose end bit is
below 31, one column right of the name line's separator at `end*2+2`, and
it is written regardless of whether the field itself has a description;
the description line exists exactly when some field of the row has a
truthy description, and for the last field of the row the separator is
still present in the final rendered line. -/
theorem c9_desc_separator_column :
    (∀ (ln : List Char) (t : PField × Nat × Nat) (l2 : List Char),
      ln.length = 65 → t.2.2 < 31 → writeDescField ln t = some l2 →
      l2[t.2.2 * 2 + 3]? = some '│') ∧
    (∀ (ln : List Char) (t : PField × Nat × Nat) (l2 : List Char),
      ln.length = 65 → t.2.2 < 31 → writeField ln t = some l2 →
      l2[t.2.2 * 2 + 2]? = some '│') ∧
    (∀ g first ls, renderRow g first = some ls →
      (ls.length = 3 ↔ g.any (fun t => descTruthy t.1) = true)) ∧
    (∀ g first b n d t, renderRow g first = some [b, n, d] →
      g.getLast? = some t → t.2.2 < 31 → d[t.2.2 * 2 + 3]? = some '│') := by
  refine ⟨?_, ?_, ?_, ?_⟩
  · intro ln t l2 hlen hend h
    exact writeDescField_sep ln t l2 hlen hend h
  · intro ln t l2 hlen hend h
    exact writeField_sep ln t l2 hlen hend h
  · intro g first ls h
    simp only [renderRow] at h
    split at h
    · cases h
    · rename_i nameLine heqn
      split at h
      · rename_i hdesc
        split at h
        · cases h
        · injection h with h2
          rw [← h2]
          simp [hdesc]
      · rename_i hdesc
        injection h with h2
        rw [← h2]
        simp only [List.length_cons, List.length_nil]
        constructor
        · intro h3
          omega
        · intro h3
          exact absurd h3 hdesc
  · intro g first b n d t h hlast hend
    simp only [renderRow] at h
    split at h
    · cases h
    · rename_i nameLine heqn
      split at h
      · split at h
        · cases h
        · rename_i descLine heqd
          injection h with h2
          have hd : d = descLine := by
            have h3 := congrArg (fun l => l[2]?) h2
            simp at h3
            exact h3.symm
          rw [hd]
          exact writeDescFields_last g initLine descLine t heqd hlast hend
            initLine_length
      · injection h with h2
        have : ([borderLine g first, nameLine] : List (List Char)).length = 3 := by
          rw [h2]
          rfl
        simp at this

/-- Description line produced for a 4-bit field named "A" with
description "x" at bits 0-3. -/
def dlC9 : List Char :=
  "│   x    │                                                      │".data

/-- Name line produced for a 4-bit field named "A" at bits 0-3. -/
def nlC9 : List Char :=
  "│   A   │                                                       │".data

/-- C9, witness: the separator columns on the concrete lines for a 4-bit
field at bits 0-3 — description separator at column 9 = 3*2+3, name
separator at column 8 = 3*2+2. -/
theorem c9_witness :
    dlC9[3 * 2 + 3]? = some '│' ∧ nlC9[3 * 2 + 2]? = some '│' := by
  constructor
  · exact c9_desc_separator_column.1 initLine (⟨"A", 4, some "x"⟩, 0, 3) dlC9
      (by decide) (by decide) (by decide)
  · exact c9_desc_separator_column.2.1 initLine (⟨"A", 4, none⟩, 0, 3) nlC9
      (by decide) (by decide) (by decide)

/-- C5, amended: in the top border of a normal row, `'┬'` appears at an
interior column exactly when that column is `end*2+3` for one of the
fields before the last; in the label line the renderer writes `'│'` at
column `end*2+2` after every field whose end bit is below 31 — including
the last field of a row that does not reach bit 31. -/
theorem c5_amended_separator_columns :
    (∀ g first j, 1 ≤ j → j ≤ 63 →
      ((borderLine g first)[j]? = some '┬' ↔
        ∃ t ∈ g.dropLast, j = t.2.2 * 2 + 3)) ∧
    (∀ (ln : List Char) (t : PField × Nat × Nat) (l2 : List Char),
      ln.length = 65 → t.2.2 < 31 → writeField ln t = some l2 →
      l2[t.2.2 * 2 + 2]? = some '│') := by
  constructor
  · intro g first j h1 h63
    obtain ⟨j2, rfl⟩ : ∃ j2, j = j2 + 1 := ⟨j - 1, by omega⟩
    have hj2 : j2 < 63 := by omega
    have hget : (borderLine g first)[j2 + 1]? =
        some (if g.dropLast.any (fun t => j2 == t.2.2 * 2 + 2) then '┬'
          else '─') := by
      simp only [borderLine]
      rw [List.getElem?_append_left (by simp; omega)]
      simp only [List.getElem?_cons_succ]
      rw [List.getElem?_map, List.getElem?_range hj2]
      rfl
    rw [hget]
    constructor
    · intro hc
      cases hp : g.dropLast.any (fun t => j2 == t.2.2 * 2 + 2) with
      | false =>
        rw [hp] at hc
        exact absurd hc (by decide)
      | true =>
        obtain ⟨t, htm, hte⟩ := List.any_eq_true.mp hp
        refine ⟨t, htm, ?_⟩
        simp only [beq_iff_eq] at hte
        omega
    · rintro ⟨t, htm, hte⟩
      have hp : g.dropLast.any (fun t2 => j2 == t2.2.2 * 2 + 2) = true :=
        List.any_eq_true.mpr ⟨t, htm, by simp only [beq_iff_eq]; omega⟩
      rw [hp]
      rfl
  · exact fun ln t l2 hlen hend h => writeField_sep ln t l2 hlen hend h

/-- Name line used by the C5 witness. -/
def nlC5 : List Char :=
  "│   A   │                                                       │".data

/-- C5, witness: in the example row the border tee after the first field
(ending at bit 3) sits at column 9 = 3*2+3, and the label line of a
single-field row ending at bit 3 has its separator at column 8 = 3*2+2. -/
theorem c5_witness :
    (borderLine exC3group true)[9]? = some '┬' ∧ nlC5[3 * 2 + 2]? = some '│' := by
  constructor
  · exact (c5_amended_separator_columns.1 exC3group true 9 (by omega)
      (by omega)).mpr ⟨(⟨"Version", 4, none⟩, 0, 3), by decide, by decide⟩
  · exact c5_amended_separator_columns.2 initLine (⟨"A", 4, none⟩, 0, 3) nlC5
      (by decide) (by decide) (by decide)

lemma fdiv_two_natCast (k : Nat) :
    Int.fdiv ((k : Nat) : Int) 2 = ((k / 2 : Nat) : Int) := by
  exact_mod_cast (Int.ofNat_fdiv k 2).symm

lemma writeField_overlay (ln : List Char) (f : PField) (st en : Nat)
    (hlen : ln.length = 65) (hse : st ≤ en) (hen : en ≤ 31)
    (hfit : f.name.data.length ≤ charSpanWidth st en) :
    ∃ l2, writeField ln (f, st, en) = some l2 ∧ l2.length = 65 ∧
      ∀ j : Nat, l2[j]? =
        if en < 31 ∧ j = en * 2 + 2 then some '│'
        else if st * 2 + 1 + (charSpanWidth st en - f.name.data.length) / 2 ≤ j ∧
            j < st * 2 + 1 + (charSpanWidth st en - f.name.data.length) / 2 +
              f.name.data.length then
          f.name.data[j - (st * 2 + 1 +
            (charSpanWidth st en - f.name.data.length) / 2)]?
        else ln[j]? := by
  have hpad : (((en : Int) * 2 + 2) - ((st : Int) * 2 + 1)) -
      (f.name.data.length : Int) =
      ((charSpanWidth st en - f.name.data.length : Nat) : Int) := by
    simp only [charSpanWidth] at hfit ⊢
    omega
  have hbase : ((st : Int) * 2 + 1) +
      Int.fdiv ((((en : Int) * 2 + 2) - ((st : Int) * 2 + 1)) -
        (f.name.data.length : Int)) 2 =
      ((st * 2 + 1 + (charSpanWidth st en - f.name.data.length) / 2 : Nat) :
        Int) := by
    rw [hpad, fdiv_two_natCast]
    push_cast
    ring
  have hce : ((en : Int) * 2 + 2) = ((en * 2 + 2 : Nat) : Int) := by
    push_cast
    ring
  obtain ⟨l2, hwc, hl2, hchar⟩ := writeChars_overlay f.name.data ln
    (st * 2 + 1 + (charSpanWidth st en - f.name.data.length) / 2) (en * 2 + 2)
    hlen (by simp only [charSpanWidth] at hfit ⊢; omega) (by omega)
  by_cases hend : en < 31
  · have hsep : pyListSet l2 ((en * 2 + 2 : Nat) : Int) '│' =
        some (l2.set (en * 2 + 2) '│') :=
      pyListSet_get l2 _ '│' (by omega)
    refine ⟨l2.set (en * 2 + 2) '│', ?_, by simp [hl2], ?_⟩
    · simp only [writeField]
      split
      · rename_i heq
        rw [hbase, hce, hwc] at heq
        cases heq
      · rename_i lmid heq
        rw [hbase, hce, hwc] at heq
        injection heq with heq2
        subst heq2
        rw [if_pos ⟨hend, by omega⟩, hce]
        exact hsep
    · intro j
      by_cases hj : j = en * 2 + 2
      · subst hj
        rw [if_pos ⟨hend, rfl⟩]
        exact List.getElem?_set_self (by omega)
      · rw [if_neg (fun hcon => hj hcon.2)]
        rw [List.getElem?_set_ne (fun he => hj he.symm)]
        exact hchar j
  · refine ⟨l2, ?_, hl2, ?_⟩
    · simp only [writeField]
      split
      · rename_i heq
        rw [hbase, hce, hwc] at heq
        cases heq
      · rename_i lmid heq
        rw [hbase, hce, hwc] at heq
        injection heq with heq2
        subst heq2
        rw [if_neg (fun hcon => hend hcon.1)]
    · intro j
      rw [if_neg (fun hcon => hend hcon.1)]
      exact hchar j

lemma writeDescField_overlay (ln : List Char) (f : PField) (st en : Nat)
    (dsc : String) (hfd : f.description = some dsc) (hne : ¬ dsc = "")
    (hlen : ln.length = 65) (hse : st ≤ en) (hen : en ≤ 31)
    (hfit : dsc.data.length ≤ charSpanWidth st en) :
    ∃ l2, writeDescField ln (f, st, en) = some l2 ∧ l2.length = 65 ∧
      ∀ j : Nat, l2[j]? =
        if en < 31 ∧ j = en * 2 + 3 then some '│'
        else if st * 2 + 1 + (charSpanWidth st en - dsc.data.length) / 2 ≤ j ∧
            j < st * 2 + 1 + (charSpanWidth st en - dsc.data.length) / 2 +
              dsc.data.length then
          dsc.data[j - (st * 2 + 1 +
            (charSpanWidth st en - dsc.data.length) / 2)]?
        else ln[j]? := by
  have hpad : (((en : Int) * 2 + 2) - ((st : Int) * 2 + 1)) -
      (dsc.data.length : Int) =
      ((charSpanWidth st en - dsc.data.length : Nat) : Int) := by
    simp only [charSpanWidth] at hfit ⊢
    omega
  have hbase : ((st : Int) * 2 + 1) +
      Int.fdiv ((((en : Int) * 2 + 2) - ((st : Int) * 2 + 1)) -
        (dsc.data.length : Int)) 2 =
      ((st * 2 + 1 + (charSpanWidth st en - dsc.data.length) / 2 : Nat) :
        Int) := by
    rw [hpad, fdiv_two_natCast]
    push_cast
    ring
  have hce : ((en : Int) * 2 + 2) = ((en * 2 + 2 : Nat) : Int) := by
    push_cast
    ring
  obtain ⟨l2, hwc, hl2, hchar⟩ := writeChars_overlay dsc.data ln
    (st * 2 + 1 + (charSpanWidth st en - dsc.data.length) / 2) (en * 2 + 2)
    hlen (by simp only [charSpanWidth] at hfit ⊢; omega) (by omega)
  by_cases hend : en < 31
  · have hsp : ((en : Int) * 2 + 3) = ((en * 2 + 3 : Nat) : Int) := by
      push_cast
      ring
    have hsep : pyListSet l2 ((en * 2 + 3 : Nat) : Int) '│' =
        some (l2.set (en * 2 + 3) '│') :=
      pyListSet_get l2 _ '│' (by omega)
    refine ⟨l2.set (en * 2 + 3) '│', ?_, by simp [hl2], ?_⟩
    · simp only [writeDescField]
      split
      · rename_i heq
        rw [hfd, Option.getD_some, if_neg hne, hbase, hce, hwc] at heq
        cases heq
      · rename_i lmid heq
        rw [hfd, Option.getD_some, if_neg hne, hbase, hce, hwc] at heq
        injection heq with heq2
        subst heq2
        rw [if_pos hend, if_pos (by omega : ((en : Int) * 2 + 3) < 64), hsp]
        exact hsep
    · intro j
      by_cases hj : j = en * 2 + 3
      · subst hj
        rw [if_pos ⟨hend, rfl⟩]
        exact List.getElem?_set_self (by omega)
      · rw [if_neg (fun hcon => hj hcon.2)]
        rw [List.getElem?_set_ne (fun he => hj he.symm)]
        exact hchar j
  · refine ⟨l2, ?_, hl2, ?_⟩
    · simp only [writeDescField]
      split
      · rename_i heq
        rw [hfd, Option.getD_some, if_neg hne, hbase, hce, hwc] at heq
        cases heq
      · rename_i lmid heq
        rw [hfd, Option.getD_some, if_neg hne, hbase, hce, hwc] at heq
        injection heq with heq2
        subst heq2
        rw [if_neg hend]
    · intro j
      rw [if_neg (fun hcon => hend hcon.1)]
      exact hchar j

lemma writeChars_wide (cs : List Char) (ln : List Char) (hlen : ln.length = 65)
    (hfit : cs.length ≤ 63) :
    ∃ l2, writeChars ln cs (Int.fdiv (63 - (cs.length : Int)) 2 + 1) 64 =
        some l2 ∧ l2.length = 65 ∧
      ∀ j : Nat, l2[j]? =
        if (63 - cs.length) / 2 + 1 ≤ j ∧
            j < (63 - cs.length) / 2 + 1 + cs.length then
          cs[j - ((63 - cs.length) / 2 + 1)]?
        else ln[j]? := by
  have h1 : (63 : Int) - (cs.length : Int) = ((63 - cs.length : Nat) : Int) := by
    omega
  have hbase : Int.fdiv (63 - (cs.length : Int)) 2 + 1 =
      (((63 - cs.length) / 2 + 1 : Nat) : Int) := by
    rw [h1, fdiv_two_natCast]
    push_cast
    ring
  have hce : (64 : Int) = ((64 : Nat) : Int) := by norm_num
  rw [hbase, hce]
  exact writeChars_overlay cs ln ((63 - cs.length) / 2 + 1) 64 hlen
    (by omega) (by omega)

/-- C7: every centering site uses `left_pad = (span_width - text_length) / 2`
with truncating division, and an odd leftover pad puts the extra column on
the right: in a wide block — with or without a description — the label and
the description each occupy exactly the columns from `(63 - len)/2 + 1`,
the rest of the body keeping the blank buffer; in a normal row the label
and the description occupy the columns from `char_start + (width - len)/2`;
and the right gap always equals the left gap plus `(width - len) mod 2`. -/
theorem c7_centering :
    (∀ (f : PField) (first : Bool), descTruthy f = false →
      f.name.data.length ≤ 63 →
      ∃ nl, renderWideField f first = some [wideBorder first, nl] ∧
        nl.length = 65 ∧
        ∀ j : Nat, nl[j]? =
          if (63 - f.name.data.length) / 2 + 1 ≤ j ∧
              j < (63 - f.name.data.length) / 2 + 1 + f.name.data.length then
            f.name.data[j - ((63 - f.name.data.length) / 2 + 1)]?
          else initLine[j]?) ∧
    (∀ (f : PField) (first : Bool) (dsc : String), f.description = some dsc →
      ¬ dsc = "" → f.name.data.length ≤ 63 → dsc.data.length ≤ 63 →
      ∃ nl dl, renderWideField f first = some [wideBorder first, nl, dl] ∧
        nl.length = 65 ∧ dl.length = 65 ∧
        (∀ j : Nat, nl[j]? =
          if (63 - f.name.data.length) / 2 + 1 ≤ j ∧
              j < (63 - f.name.data.length) / 2 + 1 + f.name.data.length then
            f.name.data[j - ((63 - f.name.data.length) / 2 + 1)]?
          else initLine[j]?) ∧
        (∀ j : Nat, dl[j]? =
          if (63 - dsc.data.length) / 2 + 1 ≤ j ∧
              j < (63 - dsc.data.length) / 2 + 1 + dsc.data.length then
            dsc.data[j - ((63 - dsc.data.length) / 2 + 1)]?
          else initLine[j]?)) ∧
    (∀ (ln : List Char) (f : PField) (st en : Nat),
      ln.length = 65 → st ≤ en → en ≤ 31 →
      f.name.data.length ≤ charSpanWidth st en →
      ∃ l2, writeField ln (f, st, en) = some l2 ∧ l2.length = 65 ∧
        ∀ j : Nat, l2[j]? =
          if en < 31 ∧ j = en * 2 + 2 then some '│'
          else if st * 2 + 1 +
              (charSpanWidth st en - f.name.data.length) / 2 ≤ j ∧
              j < st * 2 + 1 + (charSpanWidth st en - f.name.data.length) / 2 +
                f.name.data.length then
            f.name.data[j - (st * 2 + 1 +
              (charSpanWidth st en - f.name.data.length) / 2)]?
          else ln[j]?) ∧
    (∀ (ln : List Char) (f : PField) (st en : Nat) (dsc : String),
      f.description = some dsc → ¬ dsc = "" → ln.length = 65 → st ≤ en →
      en ≤ 31 → dsc.data.length ≤ charSpanWidth st en →
      ∃ l2, writeDescField ln (f, st, en) = some l2 ∧ l2.length = 65 ∧
        ∀ j : Nat, l2[j]? =
          if en < 31 ∧ j = en * 2 + 3 then some '│'
          else if st * 2 + 1 + (charSpanWidth st en - dsc.data.length) / 2 ≤ j ∧
              j < st * 2 + 1 + (charSpanWidth st en - dsc.data.length) / 2 +
                dsc.data.length then
            dsc.data[j - (st * 2 + 1 +
              (charSpanWidth st en - dsc.data.length) / 2)]?
          else ln[j]?) ∧
    (∀ w len : Nat, len ≤ w →
      (w - len) - (w - len) / 2 = (w - len) / 2 + (w - len) % 2) := by
  refine ⟨?_, ?_, ?_, ?_, ?_⟩
  · intro f first hdesc hfit
    obtain ⟨l2, hwc, hl2, hchar⟩ :=
      writeChars_wide f.name.data initLine initLine_length hfit
    refine ⟨l2, ?_, hl2, hchar⟩
    simp only [renderWideField, hwc, hdesc, Bool.false_eq_true, if_false]
  · intro f first dsc hfd hne hnfit hdfit
    obtain ⟨nl, hwc1, hnl, hcharn⟩ :=
      writeChars_wide f.name.data initLine initLine_length hnfit
    obtain ⟨dl, hwc2, hdl, hchard⟩ :=
      writeChars_wide dsc.data initLine initLine_length hdfit
    have hdt : descTruthy f = true := by
      simp [descTruthy, hfd, hne]
    refine ⟨nl, dl, ?_, hnl, hdl, hcharn, hchard⟩
    simp only [renderWideField, hfd, Option.getD_some, hwc1, hdt, if_true,
      eq_self_iff_true, hwc2]
  · intro ln f st en hlen hse hen hfit
    exact writeField_overlay ln f st en hlen hse hen hfit
  · intro ln f st en dsc hfd hne hlen hse hen hfit
    exact writeDescField_overlay ln f st en dsc hfd hne hlen hse hen hfit
  · intro w len hle
    omega

/-- C7, witness: the centering theorem applied to a wide "Options" field
without and with a description, and to the "Type" field of the end-to-end
example. -/
theorem c7_witness :
    (∃ nl, renderWideField ⟨"Options", 64, none⟩ true =
        some [wideBorder true, nl] ∧ nl.length = 65 ∧
        ∀ j : Nat, nl[j]? =
          if (63 - ("Options".data.length : Nat)) / 2 + 1 ≤ j ∧
              j < (63 - ("Options".data.length : Nat)) / 2 + 1 +
                "Options".data.length then
            "Options".data[j - ((63 - ("Options".data.length : Nat)) / 2 + 1)]?
          else initLine[j]?) ∧
    (∃ nl dl, renderWideField ⟨"Options", 64, some "Optional data"⟩ false =
        some [wideBorder false, nl, dl] ∧ nl.length = 65 ∧ dl.length = 65 ∧
        (∀ j : Nat, nl[j]? =
          if (63 - ("Options".data.length : Nat)) / 2 + 1 ≤ j ∧
              j < (63 - ("Options".data.length : Nat)) / 2 + 1 +
                "Options".data.length then
            "Options".data[j - ((63 - ("Options".data.length : Nat)) / 2 + 1)]?
          else initLine[j]?) ∧
        (∀ j : Nat, dl[j]? =
          if (63 - ("Optional data".data.length : Nat)) / 2 + 1 ≤ j ∧
              j < (63 - ("Optional data".data.length : Nat)) / 2 + 1 +
                "Optional data".data.length then
            "Optional data".data[j -
              ((63 - ("Optional data".data.length : Nat)) / 2 + 1)]?
          else initLine[j]?)) ∧
    (∃ l2, writeField initLine (⟨"Type", 4, none⟩, 4, 7) = some l2 ∧
      l2.length = 65 ∧
      ∀ j : Nat, l2[j]? =
        if 7 < 31 ∧ j = 7 * 2 + 2 then some '│'
        else if 4 * 2 + 1 + (charSpanWidth 4 7 - "Type".data.length) / 2 ≤ j ∧
            j < 4 * 2 + 1 + (charSpanWidth 4 7 - "Type".data.length) / 2 +
              "Type".data.length then
          "Type".data[j - (4 * 2 + 1 +
            (charSpanWidth 4 7 - "Type".data.length) / 2)]?
        else initLine[j]?) := by
  refine ⟨?_, ?_, ?_⟩
  · exact c7_centering.1 ⟨"Options", 64, none⟩ true (by decide) (by decide)
  · exact c7_centering.2.1 ⟨"Options", 64, some "Optional data"⟩ false
      "Optional data" rfl (by decide) (by decide) (by decide)
  · exact c7_centering.2.2.1 initLine ⟨"Type", 4, none⟩ 4 7 initLine_length
      (by omega) (by omega) (by decide)

/-- C8: a protocol with a name, no total note and an empty field list
renders without error to exactly the title line, a blank line, the two
fixed ruler lines and the closing border, with no row content between. -/
theorem c8_empty_fields (nm : String) (src : Option String) :
    generate_diagram_lines ⟨some nm, src, none, []⟩ =
      some [nm ++ (match src with | some s => " (" ++ s ++ ")" | none => ""), "",
            rulerA, rulerB, closingStr] := by
  cases src <;> rfl

/-- C8, witness: the empty-field theorem applied to a named protocol with a
source. -/
theorem c8_witness :
    generate_diagram_lines ⟨some "ARP", some "RFC 826", none, []⟩ =
      some ["ARP" ++ (" (" ++ "RFC 826" ++ ")"), "", rulerA, rulerB,
            closingStr] :=
  c8_empty_fields "ARP" (some "RFC 826")

end Daedalus
